import Mathlib

/-!
Verification of the maze-solving search algorithms in `dfs.py`, `bfs.py` and
`astar.py` (functions `dfs_algorithm`, `bfs_algorithm`, `a_star_algorithm`).

The three Python functions share one loop shape: a frontier seeded with the
start coordinate, a visited set filled at expansion time, and a neighbour
probe `maze[n_row][n_col] == "-"`.  The embedding keeps Python's list-indexing
semantics: a negative index wraps around to the other end of the list, an
index at or past the length raises `IndexError`.  Coordinates are therefore
pairs of integers, a probe returns `Option Char` (`none` = `IndexError`), and
a whole run returns `SR.err` when the Python code would raise.

Each loop body is one `Step` function; `runStep` iterates it on fuel.  The
exposed functions run on the fuel `searchFuel`, which `runStep_settled` and
the per-algorithm measure lemmas prove is never exhausted, so the fuel is an
embedding artifact only.
-/

namespace MazeSolver

/-- A maze coordinate `(row, col)`.  Python arithmetic can drive either
component negative, so both are integers. -/
abbrev Coord : Type := Int × Int

/-- A path through the maze, as the Python code builds it: start to end
inclusive. -/
abbrev MPath : Type := List Coord

/-- The maze: a list of rows of single characters (`'-'` open, `'#'` wall). -/
abbrev Maze : Type := List (List Char)

/-- Python list indexing `xs[i]`: a non-negative index counts from the front,
a negative index not below `-len(xs)` wraps from the back, anything else
raises `IndexError` (`none`). -/
def pyGet {α : Type} (xs : List α) (i : Int) : Option α :=
  if 0 ≤ i then
    if i < (xs.length : Int) then xs[i.toNat]? else none
  else
    if -(xs.length : Int) ≤ i then xs[((xs.length : Int) + i).toNat]? else none

/-- The probe `maze[p.1][p.2]` with Python indexing; `none` = `IndexError`. -/
def probe (maze : Maze) (p : Coord) : Option Char :=
  (pyGet maze p.1).bind fun row => pyGet row p.2

/-- Neighbour order of `dfs.py` line 46 and `bfs.py` line 103:
`[(row+1, col), (row-1, col), (row, col+1), (row, col-1)]`. -/
def nbrs (p : Coord) : List Coord :=
  [(p.1 + 1, p.2), (p.1 - 1, p.2), (p.1, p.2 + 1), (p.1, p.2 - 1)]

/-- Neighbour order of `astar.py` line 169:
`[(row-1, col), (row+1, col), (row, col-1), (row, col+1)]`. -/
def nbrsA (p : Coord) : List Coord :=
  [(p.1 - 1, p.2), (p.1 + 1, p.2), (p.1, p.2 - 1), (p.1, p.2 + 1)]

/-- Result of one invocation: `ok path node_count` for a Python `return`,
`err` for an uncaught `IndexError`, `fuelOut` when the embedding's fuel ran
out (shown impossible for the exposed fuel). -/
inductive SR : Type where
  | ok : MPath → Nat → SR
  | err : SR
  | fuelOut : SR
  deriving DecidableEq, Repr

/-- `true` unless the run was cut by fuel: the Python loop finished, by
`return` or by raising. -/
def SR.settled : SR → Bool
  | .fuelOut => false
  | _ => true

/-- Loop state: the frontier (stack / queue / heap contents), the visited
set, and `node_count`. -/
structure SState (ε : Type) : Type where
  frontier : List ε
  visited : Finset Coord
  count : Nat
  deriving DecidableEq

/-- Outcome of one loop iteration. -/
inductive Step (σ : Type) : Type where
  | done : MPath → Nat → Step σ
  | fail : Step σ
  | next : σ → Step σ
  deriving DecidableEq

/-- Iterate a loop body on fuel. -/
def runStep {σ : Type} (f : σ → Step σ) : Nat → σ → SR
  | 0, _ => .fuelOut
  | n + 1, s =>
    match f s with
    | .done p c => .ok p c
    | .fail => .err
    | .next s' => runStep f n s'

/-- The neighbour loop of `dfs.py` lines 49-54: probe each neighbour in
order, appending `(neighbor, path + [neighbor])` to the stack when the cell
reads `'-'`; `none` when a probe raises `IndexError`. -/
def dfsPush (maze : Maze) (path : MPath) (stack : List (Coord × MPath)) :
    List Coord → Option (List (Coord × MPath))
  | [] => some stack
  | nb :: rest =>
    match probe maze nb with
    | none => none
    | some ch =>
      if ch = '-' then dfsPush maze path (stack ++ [(nb, path ++ [nb])]) rest
      else dfsPush maze path stack rest

/-- The neighbour loop of `bfs.py` lines 106-111: as `dfsPush`, but an entry
is enqueued only when `neighbor not in visited`. -/
def bfsPush (maze : Maze) (vis : Finset Coord) (path : MPath)
    (queue : List (Coord × MPath)) : List Coord → Option (List (Coord × MPath))
  | [] => some queue
  | nb :: rest =>
    match probe maze nb with
    | none => none
    | some ch =>
      if ch = '-' ∧ nb ∉ vis then
        bfsPush maze vis path (queue ++ [(nb, path ++ [nb])]) rest
      else bfsPush maze vis path queue rest

/-- The Manhattan-distance heuristic of `astar.py` lines 141-142. -/
def manh (a b : Coord) : Nat := (a.1 - b.1).natAbs + (a.2 - b.2).natAbs

/-- A heap entry of `astar.py`: `(heuristic value + cost, cost, node, path)`. -/
abbrev AEntry : Type := Nat × Nat × Coord × MPath

/-- The neighbour loop of `astar.py` lines 172-179: push
`(cost+1+heuristic(neighbor), cost+1, neighbor, path+[neighbor])` for each
open neighbour. -/
def astarPush (maze : Maze) (e : Coord) (cost : Nat) (path : MPath)
    (heap : List AEntry) : List Coord → Option (List AEntry)
  | [] => some heap
  | nb :: rest =>
    match probe maze nb with
    | none => none
    | some ch =>
      if ch = '-' then
        astarPush maze e cost path
          (heap ++ [(cost + 1 + manh nb e, cost + 1, nb, path ++ [nb])]) rest
      else astarPush maze e cost path heap rest

/-- Python `<` on coordinate pairs (tuple comparison, lexicographic). -/
def coordLtB (a b : Coord) : Bool :=
  decide (a.1 < b.1) || (decide (a.1 = b.1) && decide (a.2 < b.2))

/-- Python `<` on paths (list comparison, lexicographic). -/
def pathLtB : MPath → MPath → Bool
  | [], [] => false
  | [], _ :: _ => true
  | _ :: _, [] => false
  | a :: l, b :: m => coordLtB a b || (decide (a = b) && pathLtB l m)

/-- Python `<` on heap entries: tuples compare lexicographically, so the
priority decides first, then the cost, then the node, then the path. -/
def aLtB (x y : AEntry) : Bool :=
  decide (x.1 < y.1) || (decide (x.1 = y.1) &&
    (decide (x.2.1 < y.2.1) || (decide (x.2.1 = y.2.1) &&
      (coordLtB x.2.2.1 y.2.2.1 || (decide (x.2.2.1 = y.2.2.1) &&
        pathLtB x.2.2.2 y.2.2.2)))))

/-- `heapq.heappop`: remove the least entry of the heap under the Python
tuple order.  Entries pushed within one run are pairwise distinct tuples
(each expansion happens once and pushes each neighbour once, with distinct
paths), so the minimum is unique and a binary heap's tie behaviour never
shows. -/
def popMin {α : Type} (lt : α → α → Bool) : List α → Option (α × List α)
  | [] => none
  | x :: rest =>
    match popMin lt rest with
    | none => some (x, [])
    | some (m, rest') => if lt m x then some (m, x :: rest') else some (x, rest)

/-- One iteration of the `while stack:` loop of `dfs.py` lines 30-54.
`stack.pop()` takes the last element; the popped node is returned when it is
`end`, skipped when already visited, and otherwise marked visited, counted,
and expanded. -/
def dfsStep (maze : Maze) (e : Coord) (s : SState (Coord × MPath)) :
    Step (SState (Coord × MPath)) :=
  match s.frontier.getLast? with
  | none => .done [] s.count
  | some (node, path) =>
    if node = e then .done path s.count
    else if node ∈ s.visited then .next ⟨s.frontier.dropLast, s.visited, s.count⟩
    else
      match dfsPush maze path s.frontier.dropLast (nbrs node) with
      | none => .fail
      | some st => .next ⟨st, insert node s.visited, s.count + 1⟩

/-- One iteration of the `while queue:` loop of `bfs.py` lines 87-111.
`queue.pop(0)` takes the first element; `visited.add(node)` happens before
the neighbour loop, so the enqueue filter checks the updated set. -/
def bfsStep (maze : Maze) (e : Coord) (s : SState (Coord × MPath)) :
    Step (SState (Coord × MPath)) :=
  match s.frontier with
  | [] => .done [] s.count
  | (node, path) :: rest =>
    if node = e then .done path s.count
    else if node ∈ s.visited then .next ⟨rest, s.visited, s.count⟩
    else
      match bfsPush maze (insert node s.visited) path rest (nbrs node) with
      | none => .fail
      | some q => .next ⟨q, insert node s.visited, s.count + 1⟩

/-- One iteration of the `while heap:` loop of `astar.py` lines 153-179.
`heapq.heappop` takes the least entry. -/
def astarStep (maze : Maze) (e : Coord) (s : SState AEntry) :
    Step (SState AEntry) :=
  match popMin aLtB s.frontier with
  | none => .done [] s.count
  | some ((_, cost, node, path), rest) =>
    if node = e then .done path s.count
    else if node ∈ s.visited then .next ⟨rest, s.visited, s.count⟩
    else
      match astarPush maze e cost path rest (nbrsA node) with
      | none => .fail
      | some h => .next ⟨h, insert node s.visited, s.count + 1⟩

/-- The longest row length of the maze. -/
def maxCols (maze : Maze) : Nat := maze.foldr (fun row m => max row.length m) 0

/-- Fuel for the exposed runs: an upper bound (proved in `mu_init_lt_fuel`
and the settled theorems) on the number of loop iterations any run can
take. -/
def searchFuel (maze : Maze) : Nat := 20 * (maze.length * maxCols maze) + 2

/-- `dfs_algorithm(maze, start, end)` of `dfs.py`: stack seeded with
`(start, [start])`, empty visited set, `node_count = 0`. -/
def dfs_algorithm (maze : Maze) (s e : Coord) : SR :=
  runStep (dfsStep maze e) (searchFuel maze) ⟨[(s, [s])], ∅, 0⟩

/-- `bfs_algorithm(maze, start, end)` of `bfs.py`. -/
def bfs_algorithm (maze : Maze) (s e : Coord) : SR :=
  runStep (bfsStep maze e) (searchFuel maze) ⟨[(s, [s])], ∅, 0⟩

/-- `a_star_algorithm(maze, start, end)` of `astar.py`: heap seeded with
`(heuristic(start), 0, start, [start])`. -/
def a_star_algorithm (maze : Maze) (s e : Coord) : SR :=
  runStep (astarStep maze e) (searchFuel maze) ⟨[(manh s e, 0, s, [s])], ∅, 0⟩

/-- The coordinate references an Open cell of the grid: row and column
non-negative, in bounds, and marked `'-'`.  This is the spec's notion of an
Open cell at a coordinate (the grid is indexed by actual position, without
Python wrap-around). -/
def openAt (maze : Maze) (p : Coord) : Bool :=
  decide (0 ≤ p.1) && decide (0 ≤ p.2) &&
    decide ((maze[p.1.toNat]?.bind fun row => row[p.2.toNat]?) = some '-')

/-- 4-connectivity: the two coordinates differ by exactly one unit in
exactly one axis. -/
def adjacent (a b : Coord) : Prop :=
  (a.1 - b.1).natAbs + (a.2 - b.2).natAbs = 1

instance adjacent.decRel : DecidableRel adjacent := fun a b =>
  decidable_of_iff ((a.1 - b.1).natAbs + (a.2 - b.2).natAbs = 1) Iff.rfl

/-- A valid path of the spec: from `s` to `e` inclusive, every coordinate an
Open cell of the grid, consecutive coordinates 4-adjacent. -/
def ValidPath (maze : Maze) (s e : Coord) (p : MPath) : Prop :=
  p.head? = some s ∧ p.getLast? = some e ∧ (∀ q ∈ p, openAt maze q = true) ∧
    p.Chain' adjacent

/-- A decision procedure for `Chain' adjacent` that reduces in the kernel. -/
def chainAdjDec : ∀ (p : MPath), Decidable (p.Chain' adjacent)
  | [] => isTrue (by simp)
  | [_] => isTrue (by simp)
  | a :: b :: t =>
    match adjacent.decRel a b, chainAdjDec (b :: t) with
    | isTrue h1, isTrue h2 => isTrue (List.chain'_cons.mpr ⟨h1, h2⟩)
    | isFalse h1, _ => isFalse fun hc => h1 (List.chain'_cons.mp hc).1
    | _, isFalse h2 => isFalse fun hc => h2 (List.chain'_cons.mp hc).2

instance ValidPath.dec (maze : Maze) (s e : Coord) (p : MPath) :
    Decidable (ValidPath maze s e p) := by
  letI : Decidable (p.Chain' adjacent) := chainAdjDec p
  exact decidable_of_iff (p.head? = some s ∧ p.getLast? = some e ∧
    (∀ q ∈ p, openAt maze q = true) ∧ p.Chain' adjacent) Iff.rfl

/-- The open in-bounds neighbours of a coordinate. -/
def openNbrs (maze : Maze) (p : Coord) : List Coord :=
  (nbrs p).filter fun q => openAt maze q

/-- Grow a coordinate set by one step of in-bounds movement through Open
cells. -/
def stepSet (maze : Maze) (A : Finset Coord) : Finset Coord :=
  A ∪ A.biUnion fun q => (openNbrs maze q).toFinset

/-- The coordinates reachable from `s` in at most `n` steps through Open
cells (in-bounds 4-directional movement). -/
def reachIn (maze : Maze) (s : Coord) : Nat → Finset Coord
  | 0 => {s}
  | n + 1 => stepSet maze (reachIn maze s n)

/-- `e` is reachable from `s` within `n` steps. -/
def reachableWithin (maze : Maze) (s e : Coord) (n : Nat) : Bool :=
  decide (e ∈ reachIn maze s n)

/-- A well-formed grid in the spec's sense: non-empty, rectangular with
non-empty rows, every cell `'-'` or `'#'`. -/
def WellFormedMaze (maze : Maze) : Prop :=
  0 < maze.length ∧ ∀ row ∈ maze, row.length = maxCols maze ∧ 0 < row.length ∧
    ∀ ch ∈ row, ch = '-' ∨ ch = '#'

instance WellFormedMaze.dec (maze : Maze) : Decidable (WellFormedMaze maze) :=
  decidable_of_iff (0 < maze.length ∧ ∀ row ∈ maze,
    row.length = maxCols maze ∧ 0 < row.length ∧
      ∀ ch ∈ row, ch = '-' ∨ ch = '#') Iff.rfl

/-- Start and end reference Open cells of the grid. -/
def ValidEndpoints (maze : Maze) (s e : Coord) : Prop :=
  openAt maze s = true ∧ openAt maze e = true

instance ValidEndpoints.dec (maze : Maze) (s e : Coord) :
    Decidable (ValidEndpoints maze s e) :=
  decidable_of_iff (openAt maze s = true ∧ openAt maze e = true) Iff.rfl

/-- The coordinates whose probe does not raise: rows in `[-R, R)`, columns in
`[-len(row), len(row))`.  Finite, so it bounds the visited set of any
non-raising run. -/
def validCoords (maze : Maze) : Finset Coord :=
  (Finset.Icc (-(maze.length : Int)) ((maze.length : Int) - 1) ×ˢ
      Finset.Icc (-(maxCols maze : Int)) ((maxCols maze : Int) - 1)).filter
    fun p => (probe maze p).isSome

/-- Termination measure: each loop iteration either shrinks the frontier or
marks a fresh coordinate of `validCoords` visited while adding at most four
entries. -/
def mu (maze : Maze) {ε : Type} (s : SState ε) : Nat :=
  s.frontier.length + 5 * ((validCoords maze) \ s.visited).card

/-- `[["-", "-"]]`: a 1-by-2 grid, both cells open. -/
def maze2 : Maze := [['-', '-']]

/-- A 1-by-1 open grid. -/
def maze1 : Maze := [['-']]

/-- The 2-by-3 grid `[["-","-","-"], ["-","#","-"]]`. -/
def mazeC3 : Maze := [['-', '-', '-'], ['-', '#', '-']]

/-- A 3-by-4 grid whose top corners `(0,0)` and `(0,2)` are separated by
walls in bounds, while the bottom row forms a corridor that Python's
negative-index wrap-around turns into a phantom route between them. -/
def grid3 : Maze :=
  [['-', '#', '-', '#'],
   ['#', '#', '#', '#'],
   ['-', '-', '-', '#']]

/-- A 5-by-4 grid where the only in-bounds route from `(0,0)` to `(0,2)`
takes 6 edges (down the left column, across row 2, back up), while the
bottom row again offers a 4-edge phantom route through wrapped negative
rows. -/
def grid5 : Maze :=
  [['-', '#', '-', '#'],
   ['-', '#', '-', '#'],
   ['-', '-', '-', '#'],
   ['#', '#', '#', '#'],
   ['-', '-', '-', '#']]

/-- A fully walled 4-by-3 grid with a two-cell open column inside. -/
def mazeBox : Maze :=
  [['#', '#', '#'],
   ['#', '-', '#'],
   ['#', '-', '#'],
   ['#', '#', '#']]

/-- A fully walled 3-by-3 grid with a two-cell open row inside. -/
def mazeH : Maze :=
  [['#', '#', '#'],
   ['#', '-', '-'],
   ['#', '#', '#']]

/-- A concrete mid-search state on `mazeH`: the cell `(1,1)` is about to be
expanded while its open neighbour `(1,2)` is already visited. -/
def stW : SState (Coord × MPath) := ⟨[((1, 1), [(1, 1)])], {(1, 2)}, 1⟩

/-- The state `dfsStep` reaches from `stW`: the visited neighbour `(1,2)` was
pushed anyway. -/
def stW' : SState (Coord × MPath) :=
  ⟨[((1, 2), [(1, 1), (1, 2)])], {(1, 1), (1, 2)}, 2⟩

/-- A concrete initial state on `mazeBox`, about to expand `(1,1)`. -/
def stX : SState (Coord × MPath) := ⟨[((1, 1), [(1, 1)])], ∅, 0⟩

/-- The state `dfsStep` reaches from `stX`. -/
def stX' : SState (Coord × MPath) := ⟨[((2, 1), [(1, 1), (2, 1)])], {(1, 1)}, 1⟩

theorem optGet_isSome {α : Type} : ∀ (l : List α) (n : Nat),
    l[n]?.isSome = true ↔ n < l.length := by
  intro l
  induction l with
  | nil => intro n; simp
  | cons a t ih =>
    intro n
    cases n with
    | zero => simp
    | succ k => simpa using ih k

theorem optGet_mem {α : Type} : ∀ {l : List α} {n : Nat} {a : α},
    l[n]? = some a → a ∈ l := by
  intro l
  induction l with
  | nil => intro n a h; simp at h
  | cons b t ih =>
    intro n a h
    cases n with
    | zero => simp at h; simp [h]
    | succ k => simp at h; exact List.mem_cons_of_mem _ (ih h)

theorem pyGet_isSome {α : Type} {xs : List α} {i : Int} :
    (pyGet xs i).isSome = true ↔ -(xs.length : Int) ≤ i ∧ i < (xs.length : Int) := by
  unfold pyGet
  split_ifs with h0 h1 h2
  · rw [optGet_isSome]; omega
  · simp only [Option.isSome_none]
    constructor
    · intro h; simp at h
    · intro h; exfalso; omega
  · rw [optGet_isSome]; omega
  · simp only [Option.isSome_none]
    constructor
    · intro h; simp at h
    · intro h; exfalso; omega

theorem pyGet_mem {α : Type} {xs : List α} {i : Int} {a : α}
    (h : pyGet xs i = some a) : a ∈ xs := by
  unfold pyGet at h
  split_ifs at h <;> exact optGet_mem h

theorem probe_isSome_elim {maze : Maze} {p : Coord}
    (h : (probe maze p).isSome = true) :
    ∃ row, pyGet maze p.1 = some row ∧ (pyGet row p.2).isSome = true := by
  unfold probe at h
  cases hr : pyGet maze p.1 with
  | none => rw [hr] at h; simp at h
  | some row => exact ⟨row, rfl, by rw [hr] at h; simpa using h⟩

theorem length_le_maxCols {maze : Maze} {row : List Char} (h : row ∈ maze) :
    row.length ≤ maxCols maze := by
  induction maze with
  | nil => simp at h
  | cons r t ih =>
    rcases List.mem_cons.mp h with rfl | h'
    · exact le_max_left _ _
    · exact le_trans (ih h') (le_max_right _ _)

theorem mem_validCoords {maze : Maze} {p : Coord}
    (h : (probe maze p).isSome = true) : p ∈ validCoords maze := by
  obtain ⟨row, hr, hc⟩ := probe_isSome_elim h
  have hrb : -(maze.length : Int) ≤ p.1 ∧ p.1 < (maze.length : Int) :=
    pyGet_isSome.mp (by rw [hr]; rfl)
  have hcb := pyGet_isSome.mp hc
  have hml : row.length ≤ maxCols maze := length_le_maxCols (pyGet_mem hr)
  unfold validCoords
  refine Finset.mem_filter.mpr ⟨Finset.mem_product.mpr ⟨?_, ?_⟩, by simpa using h⟩
  · rw [Finset.mem_Icc]; omega
  · rw [Finset.mem_Icc]; omega

theorem probe_self {maze : Maze} {p : Coord}
    (h3 : (probe maze (p.1, p.2 + 1)).isSome = true)
    (h4 : (probe maze (p.1, p.2 - 1)).isSome = true) :
    (probe maze p).isSome = true := by
  obtain ⟨row, hr, hc3⟩ := probe_isSome_elim h3
  obtain ⟨row', hr', hc4⟩ := probe_isSome_elim h4
  simp only at hr hr' hc3 hc4
  rw [hr] at hr'
  injection hr' with hrow
  subst hrow
  have hb3 := pyGet_isSome.mp hc3
  have hb4 := pyGet_isSome.mp hc4
  unfold probe
  rw [hr]
  show (pyGet row p.2).isSome = true
  exact pyGet_isSome.mpr (by omega)

theorem validCoords_card_le (maze : Maze) :
    (validCoords maze).card ≤ 4 * (maze.length * maxCols maze) := by
  unfold validCoords
  refine le_trans (Finset.card_filter_le _ _) ?_
  rw [Finset.card_product, Int.card_Icc, Int.card_Icc]
  have h1 : (((maze.length : Int) - 1) + 1 - (-(maze.length : Int))).toNat
      = 2 * maze.length := by omega
  have h2 : (((maxCols maze : Int) - 1) + 1 - (-(maxCols maze : Int))).toNat
      = 2 * maxCols maze := by omega
  rw [h1, h2]
  ring_nf
  omega

theorem runStep_settled_of_mu {σ : Type} (f : σ → Step σ) (m : σ → Nat)
    (hdec : ∀ s s', f s = .next s' → m s' < m s) :
    ∀ (n : Nat) (s : σ), m s < n → (runStep f n s).settled = true := by
  intro n
  induction n with
  | zero => intro s h; omega
  | succ k ih =>
    intro s hs
    cases hf : f s with
    | done p c => simp [runStep, hf, SR.settled]
    | fail => simp [runStep, hf, SR.settled]
    | next s' =>
      have hm := hdec s s' hf
      simpa [runStep, hf] using ih s' (by omega)

theorem runStep_count_le {σ : Type} (f : σ → Step σ) (cnt : σ → Nat)
    (hdone : ∀ s p c, f s = .done p c → c = cnt s)
    (hnext : ∀ s s', f s = .next s' → cnt s ≤ cnt s') :
    ∀ (n : Nat) (s : σ) (p : MPath) (c : Nat), runStep f n s = .ok p c → cnt s ≤ c := by
  intro n
  induction n with
  | zero => intro s p c h; simp [runStep] at h
  | succ k ih =>
    intro s p c h
    cases hf : f s with
    | done p' c' =>
      rw [runStep, hf] at h
      injection h with h1 h2
      subst h2
      exact le_of_eq (hdone s p' c' hf).symm
    | fail => rw [runStep, hf] at h; cases h
    | next s' =>
      rw [runStep, hf] at h
      exact le_trans (hnext s s' hf) (ih s' p c h)

theorem runStep_done {σ : Type} (f : σ → Step σ) {n : Nat} {s : σ} {p : MPath}
    {c : Nat} (hn : 0 < n) (h : f s = .done p c) : runStep f n s = .ok p c := by
  cases n with
  | zero => omega
  | succ k => simp [runStep, h]

theorem runStep_fail {σ : Type} (f : σ → Step σ) {n : Nat} {s : σ}
    (hn : 0 < n) (h : f s = .fail) : runStep f n s = .err := by
  cases n with
  | zero => omega
  | succ k => simp [runStep, h]

theorem runStep_next {σ : Type} (f : σ → Step σ) {n : Nat} {s s' : σ}
    (h : f s = .next s') : runStep f (n + 1) s = runStep f n s' := by
  simp [runStep, h]

theorem popMin_none {α : Type} {lt : α → α → Bool} :
    ∀ {l : List α}, popMin lt l = none → l = [] := by
  intro l
  cases l with
  | nil => intro _; rfl
  | cons a t =>
    intro h
    rw [popMin] at h
    cases hp : popMin lt t with
    | none => simp only [hp] at h; cases h
    | some mr =>
      obtain ⟨m, r⟩ := mr
      simp only [hp] at h
      split_ifs at h

theorem popMin_length {α : Type} {lt : α → α → Bool} :
    ∀ {l : List α} {x : α} {rest : List α},
      popMin lt l = some (x, rest) → rest.length + 1 = l.length := by
  intro l
  induction l with
  | nil => intro x rest h; simp [popMin] at h
  | cons a t ih =>
    intro x rest h
    rw [popMin] at h
    cases hp : popMin lt t with
    | none =>
      have ht : t = [] := popMin_none hp
      simp only [hp] at h
      injection h with h1
      injection h1 with h1 h2
      subst h2
      subst ht
      simp
    | some mr =>
      obtain ⟨m, rest'⟩ := mr
      simp only [hp] at h
      have hlen := ih hp
      by_cases hlt : lt m a = true
      · rw [if_pos hlt] at h
        injection h with h1
        injection h1 with h1 h2
        subst h2
        simp only [List.length_cons] at hlen ⊢
        omega
      · rw [if_neg hlt] at h
        injection h with h1
        injection h1 with h1 h2
        subst h2
        simp

theorem dfsPush_length {maze : Maze} {path : MPath} :
    ∀ {l : List Coord} {st st' : List (Coord × MPath)},
      dfsPush maze path st l = some st' → st'.length ≤ st.length + l.length := by
  intro l
  induction l with
  | nil =>
    intro st st' h
    rw [dfsPush] at h
    injection h with h1
    subst h1
    simp
  | cons nb rest ih =>
    intro st st' h
    rw [dfsPush] at h
    cases hp : probe maze nb with
    | none => simp only [hp] at h; cases h
    | some ch =>
      simp only [hp] at h
      by_cases hch : ch = '-'
      · rw [if_pos hch] at h
        have := ih h
        simp at this ⊢
        omega
      · rw [if_neg hch] at h
        have := ih h
        simp at this ⊢
        omega

theorem dfsPush_probe {maze : Maze} {path : MPath} :
    ∀ {l : List Coord} {st st' : List (Coord × MPath)},
      dfsPush maze path st l = some st' →
        ∀ nb ∈ l, (probe maze nb).isSome = true := by
  intro l
  induction l with
  | nil => intro st st' _ nb hnb; simp at hnb
  | cons a rest ih =>
    intro st st' h nb hnb
    rw [dfsPush] at h
    cases hp : probe maze a with
    | none => simp only [hp] at h; cases h
    | some ch =>
      simp only [hp] at h
      rcases List.mem_cons.mp hnb with rfl | h'
      · simp [hp]
      · by_cases hch : ch = '-'
        · rw [if_pos hch] at h; exact ih h nb h'
        · rw [if_neg hch] at h; exact ih h nb h'

theorem dfsPush_mono {maze : Maze} {path : MPath} :
    ∀ {l : List Coord} {st st' : List (Coord × MPath)},
      dfsPush maze path st l = some st' → ∀ x ∈ st, x ∈ st' := by
  intro l
  induction l with
  | nil =>
    intro st st' h x hx
    rw [dfsPush] at h
    injection h with h1
    subst h1
    exact hx
  | cons a rest ih =>
    intro st st' h x hx
    rw [dfsPush] at h
    cases hp : probe maze a with
    | none => simp only [hp] at h; cases h
    | some ch =>
      simp only [hp] at h
      by_cases hch : ch = '-'
      · rw [if_pos hch] at h
        exact ih h x (List.mem_append_left _ hx)
      · rw [if_neg hch] at h
        exact ih h x hx

theorem dfsPush_mem {maze : Maze} {path : MPath} :
    ∀ {l : List Coord} {st st' : List (Coord × MPath)},
      dfsPush maze path st l = some st' →
        ∀ nb ∈ l, probe maze nb = some '-' → (nb, path ++ [nb]) ∈ st' := by
  intro l
  induction l with
  | nil => intro st st' _ nb hnb; simp at hnb
  | cons a rest ih =>
    intro st st' h nb hnb hopen
    rw [dfsPush] at h
    cases hp : probe maze a with
    | none => simp only [hp] at h; cases h
    | some ch =>
      simp only [hp] at h
      rcases List.mem_cons.mp hnb with rfl | h'
      · rw [hopen] at hp
        injection hp with hch
        rw [if_pos hch.symm] at h
        exact dfsPush_mono h _ (by simp)
      · by_cases hch : ch = '-'
        · rw [if_pos hch] at h; exact ih h nb h' hopen
        · rw [if_neg hch] at h; exact ih h nb h' hopen

theorem bfsPush_length {maze : Maze} {vis : Finset Coord} {path : MPath} :
    ∀ {l : List Coord} {st st' : List (Coord × MPath)},
      bfsPush maze vis path st l = some st' → st'.length ≤ st.length + l.length := by
  intro l
  induction l with
  | nil =>
    intro st st' h
    rw [bfsPush] at h
    injection h with h1
    subst h1
    simp
  | cons nb rest ih =>
    intro st st' h
    rw [bfsPush] at h
    cases hp : probe maze nb with
    | none => simp only [hp] at h; cases h
    | some ch =>
      simp only [hp] at h
      by_cases hch : ch = '-' ∧ nb ∉ vis
      · rw [if_pos hch] at h
        have := ih h
        simp at this ⊢
        omega
      · rw [if_neg hch] at h
        have := ih h
        simp at this ⊢
        omega

theorem bfsPush_probe {maze : Maze} {vis : Finset Coord} {path : MPath} :
    ∀ {l : List Coord} {st st' : List (Coord × MPath)},
      bfsPush maze vis path st l = some st' →
        ∀ nb ∈ l, (probe maze nb).isSome = true := by
  intro l
  induction l with
  | nil => intro st st' _ nb hnb; simp at hnb
  | cons a rest ih =>
    intro st st' h nb hnb
    rw [bfsPush] at h
    cases hp : probe maze a with
    | none => simp only [hp] at h; cases h
    | some ch =>
      simp only [hp] at h
      rcases List.mem_cons.mp hnb with rfl | h'
      · simp [hp]
      · by_cases hch : ch = '-' ∧ a ∉ vis
        · rw [if_pos hch] at h; exact ih h nb h'
        · rw [if_neg hch] at h; exact ih h nb h'

theorem bfsPush_mem_elim {maze : Maze} {vis : Finset Coord} {path : MPath} :
    ∀ {l : List Coord} {st st' : List (Coord × MPath)},
      bfsPush maze vis path st l = some st' →
        ∀ x ∈ st', x ∈ st ∨ x.1 ∉ vis := by
  intro l
  induction l with
  | nil =>
    intro st st' h x hx
    rw [bfsPush] at h
    injection h with h1
    subst h1
    exact Or.inl hx
  | cons a rest ih =>
    intro st st' h x hx
    rw [bfsPush] at h
    cases hp : probe maze a with
    | none => simp only [hp] at h; cases h
    | some ch =>
      simp only [hp] at h
      by_cases hch : ch = '-' ∧ a ∉ vis
      · rw [if_pos hch] at h
        rcases ih h x hx with hm | hm
        · rcases List.mem_append.mp hm with hm' | hm'
          · exact Or.inl hm'
          · simp at hm'
            subst hm'
            exact Or.inr hch.2
        · exact Or.inr hm
      · rw [if_neg hch] at h
        exact ih h x hx

theorem astarPush_length {maze : Maze} {e : Coord} {cost : Nat} {path : MPath} :
    ∀ {l : List Coord} {st st' : List AEntry},
      astarPush maze e cost path st l = some st' → st'.length ≤ st.length + l.length := by
  intro l
  induction l with
  | nil =>
    intro st st' h
    rw [astarPush] at h
    injection h with h1
    subst h1
    simp
  | cons nb rest ih =>
    intro st st' h
    rw [astarPush] at h
    cases hp : probe maze nb with
    | none => simp only [hp] at h; cases h
    | some ch =>
      simp only [hp] at h
      by_cases hch : ch = '-'
      · rw [if_pos hch] at h
        have := ih h
        simp at this ⊢
        omega
      · rw [if_neg hch] at h
        have := ih h
        simp at this ⊢
        omega

theorem astarPush_probe {maze : Maze} {e : Coord} {cost : Nat} {path : MPath} :
    ∀ {l : List Coord} {st st' : List AEntry},
      astarPush maze e cost path st l = some st' →
        ∀ nb ∈ l, (probe maze nb).isSome = true := by
  intro l
  induction l with
  | nil => intro st st' _ nb hnb; simp at hnb
  | cons a rest ih =>
    intro st st' h nb hnb
    rw [astarPush] at h
    cases hp : probe maze a with
    | none => simp only [hp] at h; cases h
    | some ch =>
      simp only [hp] at h
      rcases List.mem_cons.mp hnb with rfl | h'
      · simp [hp]
      · by_cases hch : ch = '-'
        · rw [if_pos hch] at h; exact ih h nb h'
        · rw [if_neg hch] at h; exact ih h nb h'

theorem astarPush_mono {maze : Maze} {e : Coord} {cost : Nat} {path : MPath} :
    ∀ {l : List Coord} {st st' : List AEntry},
      astarPush maze e cost path st l = some st' → ∀ x ∈ st, x ∈ st' := by
  intro l
  induction l with
  | nil =>
    intro st st' h x hx
    rw [astarPush] at h
    injection h with h1
    subst h1
    exact hx
  | cons a rest ih =>
    intro st st' h x hx
    rw [astarPush] at h
    cases hp : probe maze a with
    | none => simp only [hp] at h; cases h
    | some ch =>
      simp only [hp] at h
      by_cases hch : ch = '-'
      · rw [if_pos hch] at h
        exact ih h x (List.mem_append_left _ hx)
      · rw [if_neg hch] at h
        exact ih h x hx

theorem astarPush_mem {maze : Maze} {e : Coord} {cost : Nat} {path : MPath} :
    ∀ {l : List Coord} {st st' : List AEntry},
      astarPush maze e cost path st l = some st' →
        ∀ nb ∈ l, probe maze nb = some '-' →
          (cost + 1 + manh nb e, cost + 1, nb, path ++ [nb]) ∈ st' := by
  intro l
  induction l with
  | nil => intro st st' _ nb hnb; simp at hnb
  | cons a rest ih =>
    intro st st' h nb hnb hopen
    rw [astarPush] at h
    cases hp : probe maze a with
    | none => simp only [hp] at h; cases h
    | some ch =>
      simp only [hp] at h
      rcases List.mem_cons.mp hnb with rfl | h'
      · rw [hopen] at hp
        injection hp with hch
        rw [if_pos hch.symm] at h
        exact astarPush_mono h _ (by simp)
      · by_cases hch : ch = '-'
        · rw [if_pos hch] at h; exact ih h nb h' hopen
        · rw [if_neg hch] at h; exact ih h nb h' hopen

theorem node_mem_validCoords_of_nbrs {maze : Maze} {node : Coord}
    (h : ∀ nb ∈ nbrs node, (probe maze nb).isSome = true) :
    node ∈ validCoords maze := by
  apply mem_validCoords
  apply probe_self
  · exact h (node.1, node.2 + 1) (by simp [nbrs])
  · exact h (node.1, node.2 - 1) (by simp [nbrs])

theorem node_mem_validCoords_of_nbrsA {maze : Maze} {node : Coord}
    (h : ∀ nb ∈ nbrsA node, (probe maze nb).isSome = true) :
    node ∈ validCoords maze := by
  apply mem_validCoords
  apply probe_self
  · exact h (node.1, node.2 + 1) (by simp [nbrsA])
  · exact h (node.1, node.2 - 1) (by simp [nbrsA])

theorem card_sdiff_insert {V vis : Finset Coord} {node : Coord}
    (hmem : node ∈ V \ vis) :
    (V \ insert node vis).card = (V \ vis).card - 1 := by
  have heq : V \ insert node vis = (V \ vis).erase node := by
    ext x
    simp only [Finset.mem_sdiff, Finset.mem_erase, Finset.mem_insert]
    tauto
  rw [heq, Finset.card_erase_of_mem hmem]

theorem dfsStep_mu {maze : Maze} {e : Coord} {s s' : SState (Coord × MPath)}
    (h : dfsStep maze e s = .next s') : mu maze s' < mu maze s := by
  unfold dfsStep at h
  cases hl : s.frontier.getLast? with
  | none => simp only [hl] at h; cases h
  | some np =>
    obtain ⟨node, path⟩ := np
    simp only [hl] at h
    have hlen : 0 < s.frontier.length := by
      cases hf : s.frontier with
      | nil => rw [hf] at hl; simp at hl
      | cons a t => simp
    by_cases he : node = e
    · rw [if_pos he] at h; cases h
    · rw [if_neg he] at h
      by_cases hv : node ∈ s.visited
      · rw [if_pos hv] at h
        injection h with h1
        subst h1
        simp only [mu, List.length_dropLast]
        omega
      · rw [if_neg hv] at h
        cases hp : dfsPush maze path s.frontier.dropLast (nbrs node) with
        | none => simp only [hp] at h; cases h
        | some st =>
          simp only [hp] at h
          injection h with h1
          subst h1
          have hle : st.length ≤ s.frontier.dropLast.length + 4 := by
            simpa [nbrs] using dfsPush_length hp
          have hnode : node ∈ validCoords maze :=
            node_mem_validCoords_of_nbrs (dfsPush_probe hp)
          have hmem : node ∈ validCoords maze \ s.visited :=
            Finset.mem_sdiff.mpr ⟨hnode, hv⟩
          have hpos : 0 < (validCoords maze \ s.visited).card :=
            Finset.card_pos.mpr ⟨node, hmem⟩
          have hcard := card_sdiff_insert hmem
          simp only [mu, List.length_dropLast] at hle ⊢
          omega

theorem bfsStep_mu {maze : Maze} {e : Coord} {s s' : SState (Coord × MPath)}
    (h : bfsStep maze e s = .next s') : mu maze s' < mu maze s := by
  unfold bfsStep at h
  cases hf : s.frontier with
  | nil => simp only [hf] at h; cases h
  | cons np rest =>
    obtain ⟨node, path⟩ := np
    simp only [hf] at h
    by_cases he : node = e
    · rw [if_pos he] at h; cases h
    · rw [if_neg he] at h
      by_cases hv : node ∈ s.visited
      · rw [if_pos hv] at h
        injection h with h1
        subst h1
        simp only [mu, hf, List.length_cons]
        omega
      · rw [if_neg hv] at h
        cases hp : bfsPush maze (insert node s.visited) path rest (nbrs node) with
        | none => simp only [hp] at h; cases h
        | some q =>
          simp only [hp] at h
          injection h with h1
          subst h1
          have hle : q.length ≤ rest.length + 4 := by
            simpa [nbrs] using bfsPush_length hp
          have hnode : node ∈ validCoords maze :=
            node_mem_validCoords_of_nbrs (bfsPush_probe hp)
          have hmem : node ∈ validCoords maze \ s.visited :=
            Finset.mem_sdiff.mpr ⟨hnode, hv⟩
          have hpos : 0 < (validCoords maze \ s.visited).card :=
            Finset.card_pos.mpr ⟨node, hmem⟩
          have hcard := card_sdiff_insert hmem
          simp only [mu, hf, List.length_cons]
          omega

theorem astarStep_mu {maze : Maze} {e : Coord} {s s' : SState AEntry}
    (h : astarStep maze e s = .next s') : mu maze s' < mu maze s := by
  unfold astarStep at h
  cases hpm : popMin aLtB s.frontier with
  | none => simp only [hpm] at h; cases h
  | some pr =>
    obtain ⟨⟨f, cost, node, path⟩, rest⟩ := pr
    simp only [hpm] at h
    have hlen : rest.length + 1 = s.frontier.length := popMin_length hpm
    by_cases he : node = e
    · rw [if_pos he] at h; cases h
    · rw [if_neg he] at h
      by_cases hv : node ∈ s.visited
      · rw [if_pos hv] at h
        injection h with h1
        subst h1
        simp only [mu]
        omega
      · rw [if_neg hv] at h
        cases hp : astarPush maze e cost path rest (nbrsA node) with
        | none => simp only [hp] at h; cases h
        | some q =>
          simp only [hp] at h
          injection h with h1
          subst h1
          have hle : q.length ≤ rest.length + 4 := by
            simpa [nbrsA] using astarPush_length hp
          have hnode : node ∈ validCoords maze :=
            node_mem_validCoords_of_nbrsA (astarPush_probe hp)
          have hmem : node ∈ validCoords maze \ s.visited :=
            Finset.mem_sdiff.mpr ⟨hnode, hv⟩
          have hpos : 0 < (validCoords maze \ s.visited).card :=
            Finset.card_pos.mpr ⟨node, hmem⟩
          have hcard := card_sdiff_insert hmem
          simp only [mu]
          omega

theorem dfsStep_done_count {maze : Maze} {e : Coord} {s : SState (Coord × MPath)}
    {p : MPath} {c : Nat} (h : dfsStep maze e s = .done p c) : c = s.count := by
  unfold dfsStep at h
  cases hl : s.frontier.getLast? with
  | none => simp only [hl] at h; injection h with h1 h2; exact h2.symm
  | some np =>
    obtain ⟨node, path⟩ := np
    simp only [hl] at h
    by_cases he : node = e
    · rw [if_pos he] at h; injection h with h1 h2; exact h2.symm
    · rw [if_neg he] at h
      by_cases hv : node ∈ s.visited
      · rw [if_pos hv] at h; cases h
      · rw [if_neg hv] at h
        cases hp : dfsPush maze path s.frontier.dropLast (nbrs node) with
        | none => simp only [hp] at h; cases h
        | some st => simp only [hp] at h; cases h

theorem dfsStep_next_count {maze : Maze} {e : Coord} {s s' : SState (Coord × MPath)}
    (h : dfsStep maze e s = .next s') : s.count ≤ s'.count := by
  unfold dfsStep at h
  cases hl : s.frontier.getLast? with
  | none => simp only [hl] at h; cases h
  | some np =>
    obtain ⟨node, path⟩ := np
    simp only [hl] at h
    by_cases he : node = e
    · rw [if_pos he] at h; cases h
    · rw [if_neg he] at h
      by_cases hv : node ∈ s.visited
      · rw [if_pos hv] at h; injection h with h1; subst h1; exact le_refl _
      · rw [if_neg hv] at h
        cases hp : dfsPush maze path s.frontier.dropLast (nbrs node) with
        | none => simp only [hp] at h; cases h
        | some st =>
          simp only [hp] at h
          injection h with h1
          subst h1
          exact Nat.le_succ _

theorem bfsStep_done_count {maze : Maze} {e : Coord} {s : SState (Coord × MPath)}
    {p : MPath} {c : Nat} (h : bfsStep maze e s = .done p c) : c = s.count := by
  unfold bfsStep at h
  cases hf : s.frontier with
  | nil => simp only [hf] at h; injection h with h1 h2; exact h2.symm
  | cons np rest =>
    obtain ⟨node, path⟩ := np
    simp only [hf] at h
    by_cases he : node = e
    · rw [if_pos he] at h; injection h with h1 h2; exact h2.symm
    · rw [if_neg he] at h
      by_cases hv : node ∈ s.visited
      · rw [if_pos hv] at h; cases h
      · rw [if_neg hv] at h
        cases hp : bfsPush maze (insert node s.visited) path rest (nbrs node) with
        | none => simp only [hp] at h; cases h
        | some q => simp only [hp] at h; cases h

theorem bfsStep_next_count {maze : Maze} {e : Coord} {s s' : SState (Coord × MPath)}
    (h : bfsStep maze e s = .next s') : s.count ≤ s'.count := by
  unfold bfsStep at h
  cases hf : s.frontier with
  | nil => simp only [hf] at h; cases h
  | cons np rest =>
    obtain ⟨node, path⟩ := np
    simp only [hf] at h
    by_cases he : node = e
    · rw [if_pos he] at h; cases h
    · rw [if_neg he] at h
      by_cases hv : node ∈ s.visited
      · rw [if_pos hv] at h; injection h with h1; subst h1; exact le_refl _
      · rw [if_neg hv] at h
        cases hp : bfsPush maze (insert node s.visited) path rest (nbrs node) with
        | none => simp only [hp] at h; cases h
        | some q =>
          simp only [hp] at h
          injection h with h1
          subst h1
          exact Nat.le_succ _

theorem astarStep_done_count {maze : Maze} {e : Coord} {s : SState AEntry}
    {p : MPath} {c : Nat} (h : astarStep maze e s = .done p c) : c = s.count := by
  unfold astarStep at h
  cases hpm : popMin aLtB s.frontier with
  | none => simp only [hpm] at h; injection h with h1 h2; exact h2.symm
  | some pr =>
    obtain ⟨⟨f, cost, node, path⟩, rest⟩ := pr
    simp only [hpm] at h
    by_cases he : node = e
    · rw [if_pos he] at h; injection h with h1 h2; exact h2.symm
    · rw [if_neg he] at h
      by_cases hv : node ∈ s.visited
      · rw [if_pos hv] at h; cases h
      · rw [if_neg hv] at h
        cases hp : astarPush maze e cost path rest (nbrsA node) with
        | none => simp only [hp] at h; cases h
        | some q => simp only [hp] at h; cases h

theorem astarStep_next_count {maze : Maze} {e : Coord} {s s' : SState AEntry}
    (h : astarStep maze e s = .next s') : s.count ≤ s'.count := by
  unfold astarStep at h
  cases hpm : popMin aLtB s.frontier with
  | none => simp only [hpm] at h; cases h
  | some pr =>
    obtain ⟨⟨f, cost, node, path⟩, rest⟩ := pr
    simp only [hpm] at h
    by_cases he : node = e
    · rw [if_pos he] at h; cases h
    · rw [if_neg he] at h
      by_cases hv : node ∈ s.visited
      · rw [if_pos hv] at h; injection h with h1; subst h1; exact le_refl _
      · rw [if_neg hv] at h
        cases hp : astarPush maze e cost path rest (nbrsA node) with
        | none => simp only [hp] at h; cases h
        | some q =>
          simp only [hp] at h
          injection h with h1
          subst h1
          exact Nat.le_succ _

theorem mu_init_lt_fuel (maze : Maze) {ε : Type} (x : ε) :
    mu maze ⟨[x], ∅, 0⟩ < searchFuel maze := by
  have h1 := validCoords_card_le maze
  simp only [mu, searchFuel, Finset.sdiff_empty, List.length_singleton]
  omega

theorem dfs_settled (maze : Maze) (s e : Coord) :
    (dfs_algorithm maze s e).settled = true := by
  unfold dfs_algorithm
  exact runStep_settled_of_mu _ (mu maze) (fun _ _ hb => dfsStep_mu hb) _ _
    (mu_init_lt_fuel maze _)

theorem bfs_settled (maze : Maze) (s e : Coord) :
    (bfs_algorithm maze s e).settled = true := by
  unfold bfs_algorithm
  exact runStep_settled_of_mu _ (mu maze) (fun _ _ hb => bfsStep_mu hb) _ _
    (mu_init_lt_fuel maze _)

theorem astar_settled (maze : Maze) (s e : Coord) :
    (a_star_algorithm maze s e).settled = true := by
  unfold a_star_algorithm
  exact runStep_settled_of_mu _ (mu maze) (fun _ _ hb => astarStep_mu hb) _ _
    (mu_init_lt_fuel maze _)

theorem searchFuel_pos (maze : Maze) : 0 < searchFuel maze := by
  simp only [searchFuel]
  omega

theorem dfs_self (maze : Maze) (s : Coord) : dfs_algorithm maze s s = .ok [s] 0 := by
  unfold dfs_algorithm
  exact runStep_done _ (searchFuel_pos maze) (by simp [dfsStep])

theorem bfs_self (maze : Maze) (s : Coord) : bfs_algorithm maze s s = .ok [s] 0 := by
  unfold bfs_algorithm
  exact runStep_done _ (searchFuel_pos maze) (by simp [bfsStep])

theorem astar_self (maze : Maze) (s : Coord) :
    a_star_algorithm maze s s = .ok [s] 0 := by
  unfold a_star_algorithm
  exact runStep_done _ (searchFuel_pos maze) (by simp [astarStep, popMin])

theorem subset_stepSet {maze : Maze} {A : Finset Coord} : A ⊆ stepSet maze A :=
  fun _ hx => Finset.mem_union_left _ hx

theorem stepSet_mono {maze : Maze} {A B : Finset Coord} (h : A ⊆ B) :
    stepSet maze A ⊆ stepSet maze B := by
  unfold stepSet
  intro x hx
  rcases Finset.mem_union.mp hx with h1 | h1
  · exact Finset.mem_union_left _ (h h1)
  · refine Finset.mem_union_right _ ?_
    obtain ⟨q, hq, hxq⟩ := Finset.mem_biUnion.mp h1
    exact Finset.mem_biUnion.mpr ⟨q, h hq, hxq⟩

theorem reachIn_mono {maze : Maze} {s : Coord} {m n : Nat} (h : m ≤ n) :
    reachIn maze s m ⊆ reachIn maze s n := by
  induction n with
  | zero =>
    have : m = 0 := by omega
    subst this
    exact subset_rfl
  | succ k ih =>
    rcases Nat.lt_succ_iff_lt_or_eq.mp (Nat.lt_succ_of_le h) with h' | h'
    · exact subset_trans (ih (by omega)) subset_stepSet
    · subst h'
      exact subset_rfl

theorem adjacent_mem_nbrs {a b : Coord} (h : adjacent a b) : b ∈ nbrs a := by
  unfold adjacent at h
  have h2 : (b.1 = a.1 + 1 ∧ b.2 = a.2) ∨ (b.1 = a.1 - 1 ∧ b.2 = a.2) ∨
      (b.1 = a.1 ∧ b.2 = a.2 + 1) ∨ (b.1 = a.1 ∧ b.2 = a.2 - 1) := by omega
  rcases h2 with ⟨h1, h2⟩ | ⟨h1, h2⟩ | ⟨h1, h2⟩ | ⟨h1, h2⟩ <;>
    simp [nbrs, Prod.ext_iff, h1, h2]

theorem stepSet_mem {maze : Maze} {A : Finset Coord} {a b : Coord}
    (ha : a ∈ A) (hadj : adjacent a b) (hb : openAt maze b = true) :
    b ∈ stepSet maze A := by
  unfold stepSet
  refine Finset.mem_union_right _ (Finset.mem_biUnion.mpr ⟨a, ha, ?_⟩)
  rw [List.mem_toFinset]
  unfold openNbrs
  rw [List.mem_filter]
  exact ⟨adjacent_mem_nbrs hadj, hb⟩

theorem reachIn_shift {maze : Maze} {a b : Coord} (hb : b ∈ stepSet maze {a}) :
    ∀ k, reachIn maze b k ⊆ reachIn maze a (k + 1) := by
  intro k
  induction k with
  | zero =>
    intro x hx
    simp [reachIn] at hx
    subst hx
    exact hb
  | succ m ih =>
    intro x hx
    exact stepSet_mono ih hx

theorem chain_reach (maze : Maze) :
    ∀ (p : MPath) (s e : Coord), p.Chain' adjacent →
      (∀ q ∈ p, openAt maze q = true) → p.head? = some s →
      p.getLast? = some e → e ∈ reachIn maze s (p.length - 1) := by
  intro p
  induction p with
  | nil => intro s e _ _ hh _; simp at hh
  | cons a t ih =>
    intro s e hch hop hh hl
    have ha : a = s := by simpa using hh
    subst ha
    cases t with
    | nil =>
      have he : e = a := by simpa using hl.symm
      subst he
      simp [reachIn]
    | cons b u =>
      have hch2 := List.chain'_cons.mp hch
      have hl2 : (b :: u).getLast? = some e := by
        rw [List.getLast?_cons_cons] at hl
        exact hl
      have hstep := ih b e hch2.2
        (fun q hq => hop q (List.mem_cons_of_mem _ hq)) rfl hl2
      have hb : b ∈ stepSet maze {a} :=
        stepSet_mem (Finset.mem_singleton_self a) hch2.1
          (hop b (by simp))
      have := reachIn_shift hb ((b :: u).length - 1) hstep
      simpa using this

theorem validPath_reachIn {maze : Maze} {s e : Coord} {p : MPath}
    (h : ValidPath maze s e p) : e ∈ reachIn maze s (p.length - 1) :=
  chain_reach maze p s e h.2.2.2 h.2.2.1 h.1 h.2.1

theorem reachIn_fix {maze : Maze} {s : Coord}
    (h : reachIn maze s 1 = reachIn maze s 0) :
    ∀ n, reachIn maze s n = reachIn maze s 0 := by
  intro n
  induction n with
  | zero => rfl
  | succ k ih =>
    show stepSet maze (reachIn maze s k) = reachIn maze s 0
    rw [ih]
    exact h

theorem dfs_first_expand {maze : Maze} {s e : Coord} {p : MPath} {c : Nat}
    (hne : s ≠ e) (h : dfs_algorithm maze s e = .ok p c) : 1 ≤ c := by
  unfold dfs_algorithm at h
  obtain ⟨k, hk⟩ : ∃ k, searchFuel maze = k + 1 :=
    ⟨searchFuel maze - 1, by have := searchFuel_pos maze; omega⟩
  rw [hk, runStep] at h
  have hred : dfsStep maze e ⟨[(s, [s])], ∅, 0⟩ =
      (if s = e then Step.done [s] 0
       else if s ∈ (∅ : Finset Coord) then Step.next ⟨[], ∅, 0⟩
       else match dfsPush maze [s] [] (nbrs s) with
         | none => Step.fail
         | some st => Step.next ⟨st, insert s ∅, 1⟩) := rfl
  have hstep : dfsStep maze e ⟨[(s, [s])], ∅, 0⟩ = .fail ∨
      ∃ st, dfsStep maze e ⟨[(s, [s])], ∅, 0⟩ = .next ⟨st, insert s ∅, 1⟩ := by
    rw [hred, if_neg hne, if_neg (Finset.not_mem_empty s)]
    cases hp : dfsPush maze [s] [] (nbrs s) with
    | none => exact Or.inl rfl
    | some st => exact Or.inr ⟨st, rfl⟩
  rcases hstep with hs1 | ⟨st, hs2⟩
  · simp only [hs1] at h; cases h
  · simp only [hs2] at h
    have := runStep_count_le (dfsStep maze e) (fun st => st.count)
      (fun _ _ _ hd => dfsStep_done_count hd)
      (fun _ _ hn => dfsStep_next_count hn) k _ p c h
    simpa using this

theorem bfs_first_expand {maze : Maze} {s e : Coord} {p : MPath} {c : Nat}
    (hne : s ≠ e) (h : bfs_algorithm maze s e = .ok p c) : 1 ≤ c := by
  unfold bfs_algorithm at h
  obtain ⟨k, hk⟩ : ∃ k, searchFuel maze = k + 1 :=
    ⟨searchFuel maze - 1, by have := searchFuel_pos maze; omega⟩
  rw [hk, runStep] at h
  have hred : bfsStep maze e ⟨[(s, [s])], ∅, 0⟩ =
      (if s = e then Step.done [s] 0
       else if s ∈ (∅ : Finset Coord) then Step.next ⟨[], ∅, 0⟩
       else match bfsPush maze (insert s ∅) [s] [] (nbrs s) with
         | none => Step.fail
         | some q => Step.next ⟨q, insert s ∅, 1⟩) := rfl
  have hstep : bfsStep maze e ⟨[(s, [s])], ∅, 0⟩ = .fail ∨
      ∃ st, bfsStep maze e ⟨[(s, [s])], ∅, 0⟩ = .next ⟨st, insert s ∅, 1⟩ := by
    rw [hred, if_neg hne, if_neg (Finset.not_mem_empty s)]
    cases hp : bfsPush maze (insert s ∅) [s] [] (nbrs s) with
    | none => exact Or.inl rfl
    | some st => exact Or.inr ⟨st, rfl⟩
  rcases hstep with hs1 | ⟨st, hs2⟩
  · simp only [hs1] at h; cases h
  · simp only [hs2] at h
    have := runStep_count_le (bfsStep maze e) (fun st => st.count)
      (fun _ _ _ hd => bfsStep_done_count hd)
      (fun _ _ hn => bfsStep_next_count hn) k _ p c h
    simpa using this

theorem astar_first_expand {maze : Maze} {s e : Coord} {p : MPath} {c : Nat}
    (hne : s ≠ e) (h : a_star_algorithm maze s e = .ok p c) : 1 ≤ c := by
  unfold a_star_algorithm at h
  obtain ⟨k, hk⟩ : ∃ k, searchFuel maze = k + 1 :=
    ⟨searchFuel maze - 1, by have := searchFuel_pos maze; omega⟩
  rw [hk, runStep] at h
  have hred : astarStep maze e ⟨[(manh s e, 0, s, [s])], ∅, 0⟩ =
      (if s = e then Step.done [s] 0
       else if s ∈ (∅ : Finset Coord) then Step.next ⟨[], ∅, 0⟩
       else match astarPush maze e 0 [s] [] (nbrsA s) with
         | none => Step.fail
         | some q => Step.next ⟨q, insert s ∅, 1⟩) := rfl
  have hstep : astarStep maze e ⟨[(manh s e, 0, s, [s])], ∅, 0⟩ = .fail ∨
      ∃ st, astarStep maze e ⟨[(manh s e, 0, s, [s])], ∅, 0⟩ =
        .next ⟨st, insert s ∅, 1⟩ := by
    rw [hred, if_neg hne, if_neg (Finset.not_mem_empty s)]
    cases hp : astarPush maze e 0 [s] [] (nbrsA s) with
    | none => exact Or.inl rfl
    | some st => exact Or.inr ⟨st, rfl⟩
  rcases hstep with hs1 | ⟨st, hs2⟩
  · simp only [hs1] at h; cases h
  · simp only [hs2] at h
    have := runStep_count_le (astarStep maze e) (fun st => st.count)
      (fun _ _ _ hd => astarStep_done_count hd)
      (fun _ _ hn => astarStep_next_count hn) k _ p c h
    simpa using this

/-- C1: the claim says a neighbour probe outside the grid's bounds is
guarded before indexing and never raises.  The code has no such guard: on
the well-formed 1-by-2 grid `[["-", "-"]]` with open start `(0,0)` and open
end `(0,1)`, all three algorithms probe `maze[1][0]` and raise `IndexError`
(modelled as `SR.err`) instead of treating the move as invalid. -/
theorem claim1_no_bounds_guard_raises :
    WellFormedMaze maze2 ∧ ValidEndpoints maze2 (0, 0) (0, 1) ∧
    dfs_algorithm maze2 (0, 0) (0, 1) = .err ∧
    bfs_algorithm maze2 (0, 0) (0, 1) = .err ∧
    a_star_algorithm maze2 (0, 0) (0, 1) = .err := by
  refine ⟨by decide, by decide, by decide, by decide, by decide⟩

/-- C2: the claim says BFS returns a true shortest path whenever the end is
reachable.  On `grid5` the end `(0,2)` is reachable from `(0,0)` and every
valid in-bounds path has at least 6 edges (7 coordinates), yet BFS returns a
4-edge "path" through the wrapped negative coordinates `(-1, c)` that
Python's unguarded indexing makes look open. -/
theorem claim2_bfs_wrap_beats_shortest :
    bfs_algorithm grid5 (0, 0) (0, 2) =
      .ok [(0, 0), (-1, 0), (-1, 1), (-1, 2), (0, 2)] 8 ∧
    ∀ p : MPath, ValidPath grid5 (0, 0) (0, 2) p → 7 ≤ p.length := by
  constructor
  · decide
  · intro p hp
    by_contra hlt
    push_neg at hlt
    have h1 : (0, 2) ∈ reachIn grid5 (0, 0) (p.length - 1) := validPath_reachIn hp
    have h2 : reachIn grid5 (0, 0) (p.length - 1) ⊆ reachIn grid5 (0, 0) 5 :=
      reachIn_mono (by omega)
    have h3 : ((0, 2) : Coord) ∉ reachIn grid5 (0, 0) 5 := by decide
    exact h3 (h2 h1)

/-- A valid 7-coordinate (6-edge) in-bounds path on `grid5`, witnessing that
the reachability hypothesis of C2 is satisfiable and that
`claim2_bfs_wrap_beats_shortest` applies to it. -/
theorem claim2_shortest_bound_witness :
    ValidPath grid5 (0, 0) (0, 2)
        [(0, 0), (1, 0), (2, 0), (2, 1), (2, 2), (1, 2), (0, 2)] ∧
    7 ≤ ([(0, 0), (1, 0), (2, 0), (2, 1), (2, 2), (1, 2), (0, 2)] : MPath).length :=
  ⟨by decide, claim2_bfs_wrap_beats_shortest.2 _ (by decide)⟩

/-- C3: the claim says A* returns a cost-optimal path whenever the end is
reachable.  On `mazeC3` the end `(1,2)` is reachable from `(0,0)` (the valid
path below), yet A* raises `IndexError` probing `maze[2][0]` while expanding
`(1,0)`, and returns nothing at all. -/
theorem claim3_astar_raises_on_reachable :
    a_star_algorithm mazeC3 (0, 0) (1, 2) = .err ∧
    ValidPath mazeC3 (0, 0) (1, 2) [(0, 0), (0, 1), (0, 2), (1, 2)] := by
  refine ⟨by decide, by decide⟩

/-- C4: the claim says the returned path is empty exactly when the end is
unreachable through Open cells.  On `grid3` the end `(0,2)` is unreachable
from `(0,0)` through Open cells (`reachableWithin` is `false` for every
step bound), yet BFS returns a non-empty wrapped path. -/
theorem claim4_nonempty_path_though_unreachable :
    bfs_algorithm grid3 (0, 0) (0, 2) =
      .ok [(0, 0), (-1, 0), (-1, 1), (-1, 2), (0, 2)] 4 ∧
    ∀ n, reachableWithin grid3 (0, 0) (0, 2) n = false := by
  constructor
  · decide
  · intro n
    unfold reachableWithin
    rw [reachIn_fix (by decide) n]
    decide

/-- C5 counterexample: on the well-formed grid `[["-", "-"]]` with open
endpoints, the BFS loop ends neither by reaching the end nor by emptying the
frontier: it terminates by raising `IndexError` (`SR.err`), a third mode the
claim as stated excludes. -/
theorem claim5_cex_exception_termination :
    WellFormedMaze maze2 ∧ ValidEndpoints maze2 (0, 0) (0, 1) ∧
    bfs_algorithm maze2 (0, 0) (0, 1) = .err := by
  refine ⟨by decide, by decide, by decide⟩

/-- C5 (amended): every invocation of the three search loops terminates —
by reaching the end, by exhausting the frontier, or by raising `IndexError`
on an unguarded out-of-bounds probe; no run exceeds the `searchFuel` bound,
so none runs forever. -/
theorem claim5_searches_terminate (maze : Maze) (s e : Coord) :
    (dfs_algorithm maze s e).settled = true ∧
    (bfs_algorithm maze s e).settled = true ∧
    (a_star_algorithm maze s e).settled = true :=
  ⟨dfs_settled maze s e, bfs_settled maze s e, astar_settled maze s e⟩

/-- C6: the claim says every coordinate of a non-empty returned path
references an Open cell of the grid.  The non-empty path DFS returns on
`grid3` contains `(-1, 0)`, which is not a cell of the grid at all
(`openAt` is `false`): it is a Python wrap-around alias for the bottom
row. -/
theorem claim6_returned_path_leaves_grid :
    dfs_algorithm grid3 (0, 0) (0, 2) =
      .ok [(0, 0), (-1, 0), (-1, 1), (-1, 2), (0, 2)] 4 ∧
    ((-1, 0) : Coord) ∈ ([(0, 0), (-1, 0), (-1, 1), (-1, 2), (0, 2)] : MPath) ∧
    openAt grid3 (-1, 0) = false := by
  refine ⟨by decide, by decide, by decide⟩

/-- C7 counterexample: when start equals end, all three algorithms return
the non-empty path `[start]` with `nodes_explored = 0`, because the start is
returned at dequeue before it is ever expanded — refuting "`nodes_explored`
is at least 1 whenever a path is found". -/
theorem claim7_cex_found_with_zero_count :
    dfs_algorithm maze1 (0, 0) (0, 0) = .ok [(0, 0)] 0 ∧
    bfs_algorithm maze1 (0, 0) (0, 0) = .ok [(0, 0)] 0 ∧
    a_star_algorithm maze1 (0, 0) (0, 0) = .ok [(0, 0)] 0 := by
  refine ⟨by decide, by decide, by decide⟩

/-- C7 (amended): whenever a search returns a path and start differs from
end, `nodes_explored` is at least 1 (the start coordinate is expanded
first); when start equals end the returned path is `[start]` with
`nodes_explored = 0`; the count is a natural number, hence never
negative. -/
theorem claim7_count_pos_when_start_ne_end :
    (∀ (maze : Maze) (s e : Coord) (p : MPath) (c : Nat),
      s ≠ e → dfs_algorithm maze s e = .ok p c → 1 ≤ c) ∧
    (∀ (maze : Maze) (s e : Coord) (p : MPath) (c : Nat),
      s ≠ e → bfs_algorithm maze s e = .ok p c → 1 ≤ c) ∧
    (∀ (maze : Maze) (s e : Coord) (p : MPath) (c : Nat),
      s ≠ e → a_star_algorithm maze s e = .ok p c → 1 ≤ c) ∧
    (∀ (maze : Maze) (s : Coord), dfs_algorithm maze s s = .ok [s] 0 ∧
      bfs_algorithm maze s s = .ok [s] 0 ∧
      a_star_algorithm maze s s = .ok [s] 0) :=
  ⟨fun _ _ _ _ _ hne h => dfs_first_expand hne h,
    fun _ _ _ _ _ hne h => bfs_first_expand hne h,
    fun _ _ _ _ _ hne h => astar_first_expand hne h,
    fun maze s => ⟨dfs_self maze s, bfs_self maze s, astar_self maze s⟩⟩

/-- C7 witness: on the fully walled `mazeBox` with distinct open start and
end, DFS finds a path and the amended bound applies: `nodes_explored = 1 ≥
1`. -/
theorem claim7_count_witness :
    dfs_algorithm mazeBox (1, 1) (2, 1) = .ok [(1, 1), (2, 1)] 1 ∧ 1 ≤ 1 :=
  ⟨by decide, claim7_count_pos_when_start_ne_end.1 mazeBox (1, 1) (2, 1)
    [(1, 1), (2, 1)] 1 (by decide) (by decide)⟩

/-- C8: BFS enqueues a discovered open neighbour only when it is not in the
visited set, while DFS and A* push every discovered open neighbour
unconditionally — no `nb ∉ visited` hypothesis is needed for the DFS/A*
parts, and every entry of a BFS successor frontier is either an old entry or
carries an unvisited coordinate. -/
theorem claim8_duplicate_filter_asymmetry :
    (∀ (maze : Maze) (e : Coord) (s s' : SState (Coord × MPath))
        (node : Coord) (path : MPath),
      s.frontier.getLast? = some (node, path) → node ∉ s.visited →
      dfsStep maze e s = .next s' →
      ∀ nb ∈ nbrs node, probe maze nb = some '-' →
        (nb, path ++ [nb]) ∈ s'.frontier) ∧
    (∀ (maze : Maze) (e : Coord) (s s' : SState (Coord × MPath)),
      bfsStep maze e s = .next s' →
      ∀ x ∈ s'.frontier, x ∈ s.frontier ∨ x.1 ∉ s.visited) ∧
    (∀ (maze : Maze) (e : Coord) (s s' : SState AEntry) (f cost : Nat)
        (node : Coord) (path : MPath) (rest : List AEntry),
      popMin aLtB s.frontier = some ((f, cost, node, path), rest) →
      node ∉ s.visited → astarStep maze e s = .next s' →
      ∀ nb ∈ nbrsA node, probe maze nb = some '-' →
        (cost + 1 + manh nb e, cost + 1, nb, path ++ [nb]) ∈ s'.frontier) := by
  refine ⟨?_, ?_, ?_⟩
  · intro maze e s s' node path hl hv h nb hnb hopen
    unfold dfsStep at h
    simp only [hl] at h
    by_cases he : node = e
    · rw [if_pos he] at h; cases h
    · rw [if_neg he, if_neg hv] at h
      cases hp : dfsPush maze path s.frontier.dropLast (nbrs node) with
      | none => simp only [hp] at h; cases h
      | some st =>
        simp only [hp] at h
        injection h with h1
        subst h1
        exact dfsPush_mem hp nb hnb hopen
  · intro maze e s s' h x hx
    unfold bfsStep at h
    cases hf : s.frontier with
    | nil => simp only [hf] at h; cases h
    | cons np rest =>
      obtain ⟨node, path⟩ := np
      simp only [hf] at h
      by_cases he : node = e
      · rw [if_pos he] at h; cases h
      · rw [if_neg he] at h
        by_cases hv : node ∈ s.visited
        · rw [if_pos hv] at h
          injection h with h1
          subst h1
          exact Or.inl (List.mem_cons_of_mem _ hx)
        · rw [if_neg hv] at h
          cases hp : bfsPush maze (insert node s.visited) path rest (nbrs node) with
          | none => simp only [hp] at h; cases h
          | some q =>
            simp only [hp] at h
            injection h with h1
            subst h1
            rcases bfsPush_mem_elim hp x hx with hm | hm
            · exact Or.inl (List.mem_cons_of_mem _ hm)
            · exact Or.inr fun hxv => hm (Finset.mem_insert_of_mem hxv)
  · intro maze e s s' f cost node path rest hpm hv h nb hnb hopen
    unfold astarStep at h
    simp only [hpm] at h
    by_cases he : node = e
    · rw [if_pos he] at h; cases h
    · rw [if_neg he, if_neg hv] at h
      cases hp : astarPush maze e cost path rest (nbrsA node) with
      | none => simp only [hp] at h; cases h
      | some q =>
        simp only [hp] at h
        injection h with h1
        subst h1
        exact astarPush_mem hp nb hnb hopen

/-- C8 witness: on `mazeH`, expanding `(1,1)` while its open neighbour
`(1,2)` is already visited, DFS still pushes `(1,2)` onto the stack. -/
theorem claim8_filter_witness :
    dfsStep mazeH (5, 5) stW = .next stW' ∧
    ((1, 2), [(1, 1), (1, 2)]) ∈ stW'.frontier ∧
    ((1, 2) : Coord) ∈ stW.visited := by
  refine ⟨by decide, ?_, by decide⟩
  exact claim8_duplicate_filter_asymmetry.1 mazeH (5, 5) stW stW' (1, 1) [(1, 1)]
    (by decide) (by decide) (by decide) (1, 2) (by decide) (by decide)

/-- C9: in each algorithm a coordinate enters the visited set only at the
moment it is dequeued and expanded, never when it is enqueued: a successor
state's visited set is either unchanged (stale duplicate skipped) or gains
exactly the popped coordinate; and whenever `node_count` equals the visited
set's cardinality, one step preserves that equality. -/
theorem claim9_visited_marked_on_expansion :
    (∀ (maze : Maze) (e : Coord) (s s' : SState (Coord × MPath)),
      dfsStep maze e s = .next s' →
      (s'.visited = s.visited ∨ ∃ node path,
        s.frontier.getLast? = some (node, path) ∧ node ∉ s.visited ∧
        s'.visited = insert node s.visited) ∧
      (s.count = s.visited.card → s'.count = s'.visited.card)) ∧
    (∀ (maze : Maze) (e : Coord) (s s' : SState (Coord × MPath)),
      bfsStep maze e s = .next s' →
      (s'.visited = s.visited ∨ ∃ node path,
        s.frontier.head? = some (node, path) ∧ node ∉ s.visited ∧
        s'.visited = insert node s.visited) ∧
      (s.count = s.visited.card → s'.count = s'.visited.card)) ∧
    (∀ (maze : Maze) (e : Coord) (s s' : SState AEntry),
      astarStep maze e s = .next s' →
      (s'.visited = s.visited ∨ ∃ f cost node path rest,
        popMin aLtB s.frontier = some ((f, cost, node, path), rest) ∧
        node ∉ s.visited ∧ s'.visited = insert node s.visited) ∧
      (s.count = s.visited.card → s'.count = s'.visited.card)) := by
  refine ⟨?_, ?_, ?_⟩
  · intro maze e s s' h
    unfold dfsStep at h
    cases hl : s.frontier.getLast? with
    | none => simp only [hl] at h; cases h
    | some np =>
      obtain ⟨node, path⟩ := np
      simp only [hl] at h
      by_cases he : node = e
      · rw [if_pos he] at h; cases h
      · rw [if_neg he] at h
        by_cases hv : node ∈ s.visited
        · rw [if_pos hv] at h
          injection h with h1
          subst h1
          exact ⟨Or.inl rfl, fun hc => hc⟩
        · rw [if_neg hv] at h
          cases hp : dfsPush maze path s.frontier.dropLast (nbrs node) with
          | none => simp only [hp] at h; cases h
          | some st =>
            simp only [hp] at h
            injection h with h1
            subst h1
            refine ⟨Or.inr ⟨node, path, rfl, hv, rfl⟩, fun hc => ?_⟩
            show s.count + 1 = (insert node s.visited).card
            rw [Finset.card_insert_of_not_mem hv, hc]
  · intro maze e s s' h
    unfold bfsStep at h
    cases hf : s.frontier with
    | nil => simp only [hf] at h; cases h
    | cons np rest =>
      obtain ⟨node, path⟩ := np
      simp only [hf] at h
      by_cases he : node = e
      · rw [if_pos he] at h; cases h
      · rw [if_neg he] at h
        by_cases hv : node ∈ s.visited
        · rw [if_pos hv] at h
          injection h with h1
          subst h1
          exact ⟨Or.inl rfl, fun hc => hc⟩
        · rw [if_neg hv] at h
          cases hp : bfsPush maze (insert node s.visited) path rest (nbrs node) with
          | none => simp only [hp] at h; cases h
          | some q =>
            simp only [hp] at h
            injection h with h1
            subst h1
            refine ⟨Or.inr ⟨node, path, rfl, hv, rfl⟩, fun hc => ?_⟩
            show s.count + 1 = (insert node s.visited).card
            rw [Finset.card_insert_of_not_mem hv, hc]
  · intro maze e s s' h
    unfold astarStep at h
    cases hpm : popMin aLtB s.frontier with
    | none => simp only [hpm] at h; cases h
    | some pr =>
      obtain ⟨⟨f, cost, node, path⟩, rest⟩ := pr
      simp only [hpm] at h
      by_cases he : node = e
      · rw [if_pos he] at h; cases h
      · rw [if_neg he] at h
        by_cases hv : node ∈ s.visited
        · rw [if_pos hv] at h
          injection h with h1
          subst h1
          exact ⟨Or.inl rfl, fun hc => hc⟩
        · rw [if_neg hv] at h
          cases hp : astarPush maze e cost path rest (nbrsA node) with
          | none => simp only [hp] at h; cases h
          | some q =>
            simp only [hp] at h
            injection h with h1
            subst h1
            refine ⟨Or.inr ⟨f, cost, node, path, rest, rfl, hv, rfl⟩, fun hc => ?_⟩
            show s.count + 1 = (insert node s.visited).card
            rw [Finset.card_insert_of_not_mem hv, hc]

/-- C9 witness: one concrete DFS expansion on `mazeBox`, after which
`node_count` still equals the cardinality of the visited set. -/
theorem claim9_expansion_witness :
    dfsStep mazeBox (9, 9) stX = .next stX' ∧ stX'.count = stX'.visited.card := by
  refine ⟨by decide, ?_⟩
  exact (claim9_visited_marked_on_expansion.1 mazeBox (9, 9) stX stX'
    (by decide)).2 (by decide)

/-- C10: when start equals end, the first dequeue returns immediately, so
each of the three algorithms returns the single-element path `[start]` (with
`nodes_explored = 0`) on every grid. -/
theorem claim10_start_eq_end (maze : Maze) (s : Coord) :
    dfs_algorithm maze s s = .ok [s] 0 ∧ bfs_algorithm maze s s = .ok [s] 0 ∧
    a_star_algorithm maze s s = .ok [s] 0 :=
  ⟨dfs_self maze s, bfs_self maze s, astar_self maze s⟩

end MazeSolver
